import Mathlib

/-
  Verification of the fsync library (fsync.go): a recursive one-directional
  tree synchronizer.  The filesystem is modelled as a rose tree of nodes
  (regular files with permission bits and byte content, directories with
  permission bits and named children).  Destination and source are two
  separate trees, matching the library's model of two non-overlapping
  filesystem locations.  Every function of fsync.go is translated
  one-to-one; in addition each translated operation returns a trace of the
  filesystem calls it performs (opens, reads, creates, writes, removals,
  chmods), each tagged with the root (destination or source) whose path the
  call received, so that claims about "no reads", "zero byte copies" and
  "the source is never written to" are statable.
-/

/-- A path relative to the destination/source root being synchronized. -/
abbrev FPath := List String

/-- File contents as a list of bytes. -/
abbrev Bytes := List Nat

/-- Which of the two roots a filesystem call was applied to.  In fsync.go
every filesystem call receives either the dst argument or the src argument
(or a path joined under one of them). -/
inductive Root where
  | dstR
  | srcR
deriving DecidableEq, Repr

/-- The filesystem calls performed by fsync.go, as recorded in traces:
os.Open for reading (openR), File.Read returning n bytes (readN),
os.Create (create), os.MkdirAll (mkdirAll), os.RemoveAll (removeAll),
os.Remove (removeOne), os.Chmod (chmod), and the write side of io.Copy
(writeN, the byte copy). -/
inductive FsOp where
  | openR
  | readN (n : Nat)
  | create
  | mkdirAll
  | removeAll
  | removeOne
  | chmod (perm : Nat)
  | writeN (n : Nat)
deriving DecidableEq, Repr

/-- One recorded filesystem call: which root's path it was given, the path
relative to that root, and the operation. -/
structure Effect where
  root : Root
  path : FPath
  op : FsOp
deriving DecidableEq, Repr

/-- Operations that modify the filesystem. -/
def FsOp.isMutation : FsOp → Bool
  | .openR => false
  | .readN _ => false
  | _ => true

/-- Operations that read file content (open-for-read and Read calls). -/
def FsOp.isRead : FsOp → Bool
  | .openR => true
  | .readN _ => true
  | _ => false

/-- The write half of io.Copy: an actual byte copy into the destination. -/
def FsOp.isWrite : FsOp → Bool
  | .writeN _ => true
  | _ => false

/-- A filesystem node: a regular file (permission bits, byte content) or a
directory (permission bits, named children in listing order). -/
inductive FNode where
  | file (perm : Nat) (content : Bytes)
  | dir (perm : Nat) (children : List (String × FNode))
deriving Repr

/-- The permission bits of a node (Go: FileInfo.Mode().Perm()). -/
def FNode.perm : FNode → Nat
  | .file p _ => p
  | .dir p _ => p

/-- Replace the permission bits of a node, leaving its type (file vs
directory) and its content or children unchanged (Go: os.Chmod). -/
def FNode.withPerm : FNode → Nat → FNode
  | .file _ c, q => .file q c
  | .dir _ cs, q => .dir q cs

/-- Whether the node is a directory (Go: FileInfo.IsDir()). -/
def FNode.isDir : FNode → Bool
  | .file _ _ => false
  | .dir _ _ => true

/-- FileInfo.Size() as used by equal: the byte length for a regular file.
fsync.go only calls equal with file (or absent) arguments, never with a
directory, so the directory value is irrelevant; we use 0. -/
def FNode.fsize : FNode → Nat
  | .file _ c => c.length
  | .dir _ _ => 0

/-- The byte content of a node; only meaningful for files (equal, the sole
consumer, is never given a directory by fsync.go). -/
def FNode.bytesOf : FNode → Bytes
  | .file _ c => c
  | .dir _ _ => []

/-- Children of a node (a file has none). -/
def FNode.childrenOf : FNode → List (String × FNode)
  | .file _ _ => []
  | .dir _ cs => cs

/-- Look up a directory entry by name (first match, as in a real directory
where names are unique). -/
def lookupChild (cs : List (String × FNode)) (n : String) : Option FNode :=
  match cs with
  | [] => none
  | (m, w) :: rest => if m = n then some w else lookupChild rest n

/-- Create or overwrite the directory entry named n: replace the first
entry with that name, or append a new entry. -/
def setChild (cs : List (String × FNode)) (n : String) (v : FNode) :
    List (String × FNode) :=
  match cs with
  | [] => [(n, v)]
  | (m, w) :: rest => if m = n then (n, v) :: rest else (m, w) :: setChild rest n v

/-- Remove the first directory entry named n. -/
def removeChild (cs : List (String × FNode)) (n : String) :
    List (String × FNode) :=
  match cs with
  | [] => []
  | (m, w) :: rest => if m = n then rest else (m, w) :: removeChild rest n

/-- Whether a listing contains an entry named n (Go: the name map m built
by sync from the source listing). -/
def hasName (cs : List (String × FNode)) (n : String) : Bool :=
  match cs with
  | [] => false
  | (m, _) :: rest => m = n || hasName rest n

/-- Whether entry names in a listing are pairwise distinct (true of any
real directory listing). -/
def namesNodup : List (String × FNode) → Bool
  | [] => true
  | (n, _) :: rest => !hasName rest n && namesNodup rest

mutual
/-- Well-formed tree: every directory listing has pairwise-distinct names,
recursively (true of any tree read from a real filesystem). -/
def wf : FNode → Bool
  | .file _ _ => true
  | .dir _ cs => namesNodup cs && wfCh cs
def wfCh : List (String × FNode) → Bool
  | [] => true
  | (_, c) :: rest => wf c && wfCh rest
end

/-- Well-formedness of an optional node (an absent path is well formed). -/
def wfO : Option FNode → Bool
  | none => true
  | some n => wf n

/-- Resolve a relative path inside a tree. -/
def FNode.lookupPath : FNode → FPath → Option FNode
  | n, [] => some n
  | .file _ _, _ :: _ => none
  | .dir _ cs, a :: rest =>
    match lookupChild cs a with
    | none => none
    | some c => c.lookupPath rest

/-- Resolve a relative path under an optional root. -/
def lookupPathO : Option FNode → FPath → Option FNode
  | none, _ => none
  | some n, p => n.lookupPath p

/-- The chunked comparison loop of equal (fsync.go lines 214 to 234):
read up to 1000 bytes from each file, compare the chunks exactly
(bytes.Equal), stop with false at the first mismatch, stop with true when
both reads return 0 bytes.  Each File.Read call is recorded in the trace
with the number of bytes it returned.  The loop is written with explicit
fuel so that it is structurally recursive; readLoop below supplies fuel
that is always sufficient. -/
def readLoopF (p : FPath) : Nat → Bytes → Bytes → Bool × List Effect
  | 0, _, _ => (false, [])
  | fuel + 1, a, b =>
    let n1 := min 1000 a.length
    let n2 := min 1000 b.length
    let e : List Effect := [⟨.dstR, p, .readN n1⟩, ⟨.srcR, p, .readN n2⟩]
    if a.take 1000 = b.take 1000 then
      if n1 = 0 ∧ n2 = 0 then (true, e)
      else
        let r := readLoopF p fuel (a.drop 1000) (b.drop 1000)
        (r.1, e ++ r.2)
    else (false, e)

/-- The comparison loop with sufficient fuel (one iteration consumes at
least one byte of one input unless it terminates). -/
def readLoop (p : FPath) (a b : Bytes) : Bool × List Effect :=
  readLoopF p (a.length + b.length + 1) a b

/-- equal (fsync.go lines 190 to 237): true when both files exist and are
byte-identical.  A missing path on either side yields false with no error
(os.IsNotExist).  If the stat'd sizes differ it returns false immediately,
before opening either file; otherwise both files are opened and compared
chunk by chunk.  The first argument is the path fsync passes as dst, the
second the one it passes as src. -/
def equal (p : FPath) (a b : Option FNode) : Bool × List Effect :=
  match a, b with
  | none, _ => (false, [])
  | _, none => (false, [])
  | some na, some nb =>
    if na.fsize = nb.fsize then
      let r := readLoop p na.bytesOf nb.bytesOf
      (r.1, ⟨.dstR, p, .openR⟩ :: ⟨.srcR, p, .openR⟩ :: r.2)
    else (false, [])

/-- syncperms (fsync.go lines 170 to 187): no-op without error if either
path does not exist; no-op if the permission bits already agree; otherwise
chmod the destination to the source's permission bits (type bits and
content untouched). -/
def syncperms (pfx : FPath) (d s : Option FNode) : Option FNode × List Effect :=
  match d, s with
  | none, _ => (none, [])
  | some dn, none => (some dn, [])
  | some dn, some sn =>
    if dn.perm = sn.perm then (some dn, [])
    else (some (dn.withPerm sn.perm), [⟨.dstR, pfx, .chmod sn.perm⟩])

/-- The file branch preamble of sync (lines 115 to 118): when the source
is a file and the destination is a directory, os.RemoveAll the destination
(recursively, entirely); otherwise leave it. -/
def prepFile (pfx : FPath) (d : Option FNode) : Option FNode × List Effect :=
  match d with
  | some (.dir _ _) => (none, [⟨.dstR, pfx, .removeAll⟩])
  | _ => (d, [])

/-- The directory branch preamble of sync (lines 134 to 142): create the
destination directory with temporary mode 0755 if it is absent, or remove
the destination file and create the directory; an existing directory is
kept.  Returns the destination directory's permission bits, its listing,
and the trace. -/
def prepDir (pfx : FPath) (d : Option FNode) :
    Nat × List (String × FNode) × List Effect :=
  match d with
  | none => (0o755, [], [⟨.dstR, pfx, .mkdirAll⟩])
  | some (.file _ _) => (0o755, [], [⟨.dstR, pfx, .removeOne⟩, ⟨.dstR, pfx, .mkdirAll⟩])
  | some (.dir dp dcs) => (dp, dcs, [])

/-- os.Create keeps the permission bits of an existing destination file
(it only truncates); a fresh file is created with mode 0666. -/
def createPerm : Option FNode → Nat
  | some (.file dp _) => dp
  | _ => 0o666

/-- The trace of the copy in sync's file branch (lines 121 to 128):
os.Create on dst, os.Open on src, io.Copy writing n bytes into dst. -/
def copyTrace (pfx : FPath) (n : Nat) : List Effect :=
  [⟨.dstR, pfx, .create⟩, ⟨.srcR, pfx, .openR⟩, ⟨.dstR, pfx, .writeN n⟩]

mutual
/-- sync (fsync.go lines 101 to 167).  Takes the deletion flag, the path
of this node relative to the two roots (dst and src are joined with the
same child names, so the relative path is shared), the current destination
node (absent allowed) and the source node (sync panics earlier if the
source is absent, so it is total here).  Returns the new destination node
at this path together with the trace of filesystem calls.  Permission
propagation (the deferred syncperms) runs after the content phase. -/
def sync (del : Bool) (pfx : FPath) (d : Option FNode) (s : FNode) :
    Option FNode × List Effect :=
  match s with
  | .file sp sc =>
    let pr := prepFile pfx d
    let eqr := equal pfx pr.1 (some (.file sp sc))
    let body : Option FNode × List Effect :=
      if eqr.1 then (pr.1, pr.2 ++ eqr.2)
      else (some (.file (createPerm pr.1) sc), pr.2 ++ eqr.2 ++ copyTrace pfx sc.length)
    let pm := syncperms pfx body.1 (some (.file sp sc))
    (pm.1, body.2 ++ pm.2)
  | .dir sp scs =>
    let pr := prepDir pfx d
    let ch := syncChildren del pfx pr.2.1 scs
    let body : Option FNode × List Effect :=
      if del then
        (some (.dir pr.1 (ch.1.filter (fun c => hasName scs c.1))),
         pr.2.2 ++ ch.2 ++ (ch.1.filter (fun c => !hasName scs c.1)).map
           (fun c => ⟨.dstR, pfx ++ [c.1], .removeAll⟩))
      else (some (.dir pr.1 ch.1), pr.2.2 ++ ch.2)
    let pm := syncperms pfx body.1 (some (.dir sp scs))
    (pm.1, body.2 ++ pm.2)

/-- The loop over the source listing in sync's directory branch (lines 150
to 155): each source child is synchronized in order into the destination
listing, whose running state is threaded through. -/
def syncChildren (del : Bool) (pfx : FPath) (cs : List (String × FNode)) :
    List (String × FNode) → List (String × FNode) × List Effect
  | [] => (cs, [])
  | (n, sn) :: rest =>
    let r := sync del (pfx ++ [n]) (lookupChild cs n) sn
    let cs1 := match r.1 with
      | some v => setChild cs n v
      | none => removeChild cs n
    let r2 := syncChildren del pfx cs1 rest
    (r2.1, r.2 ++ r2.2)
end

/-- The errors the library can return: the guard error ErrFileOverDir, and
the stat failure on a missing source. -/
inductive SyncErr where
  | fileOverDir
  | missingSource
deriving DecidableEq, Repr

/-- checkDir (fsync.go lines 240 to 269): true exactly when the
destination exists and is a directory, the source exists and is a file,
and the destination's listing is non-empty.  A missing destination is
safe; a missing source (with an existing destination) is a stat error. -/
def checkDir (d s : Option FNode) : Except SyncErr Bool :=
  match d, s with
  | none, _ => .ok false
  | some _, none => .error .missingSource
  | some (.file _ _), some _ => .ok false
  | some (.dir _ _), some (.dir _ _) => .ok false
  | some (.dir _ dcs), some (.file _ _) => .ok (decide (0 < dcs.length))

/-- The shared body of Sync and SyncDel (fsync.go lines 29 to 51): run the
guard, fail with ErrFileOverDir if it fires (before any mutation), fail if
the source is missing (the panic recovered by syncRecover), otherwise run
sync from the roots. -/
def SyncFs (del : Bool) (d s : Option FNode) :
    Except SyncErr (Option FNode × List Effect) :=
  match checkDir d s with
  | .error e => .error e
  | .ok true => .error .fileOverDir
  | .ok false =>
    match s with
    | none => .error .missingSource
    | some sn => .ok (sync del [] d sn)

/-- Sync (fsync.go line 29). -/
def Sync (d s : Option FNode) : Except SyncErr (Option FNode × List Effect) :=
  SyncFs false d s

/-- SyncDel (fsync.go line 42). -/
def SyncDel (d s : Option FNode) : Except SyncErr (Option FNode × List Effect) :=
  SyncFs true d s

/-- The destination tree after a call: an error return leaves the
filesystem untouched (the guard and the missing-source stat both happen
before any mutating call in fsync.go). -/
def fsAfter (del : Bool) (d s : Option FNode) : Option FNode :=
  match SyncFs del d s with
  | .ok r => r.1
  | .error _ => d


mutual
/-- Size of a tree, used as the measure for strong induction. -/
def FNode.size : FNode → Nat
  | .file _ _ => 1
  | .dir _ cs => 1 + sizeL cs
def sizeL : List (String × FNode) → Nat
  | [] => 0
  | (_, c) :: rest => FNode.size c + sizeL rest
end

mutual
/-- Destination dn mirrors source s: same type, same permission bits, same
byte content for files, and (for directories) every source child is
present and recursively mirrored.  The destination may still hold extra
children; noExtra below excludes those. -/
def synced : FNode → FNode → Bool
  | .file dp dc, .file sp sc => decide (dp = sp) && decide (dc = sc)
  | .dir dp dcs, .dir sp scs => decide (dp = sp) && syncedCh dcs scs
  | _, _ => false
def syncedCh (dcs : List (String × FNode)) : List (String × FNode) → Bool
  | [] => true
  | (n, sn) :: rest =>
    (match lookupChild dcs n with
     | some dn => synced dn sn
     | none => false) && syncedCh dcs rest
end

mutual
/-- Destination dn holds no path absent from source s: every destination
directory entry corresponds to a source entry of the same name,
recursively. -/
def noExtra : FNode → FNode → Bool
  | .file _ _, _ => true
  | .dir _ dcs, .file _ _ => dcs.isEmpty
  | .dir _ dcs, .dir _ scs => noExtraCh scs dcs
def noExtraCh (scs : List (String × FNode)) : List (String × FNode) → Bool
  | [] => true
  | (n, dn) :: rest =>
    (match lookupChild scs n with
     | some sn => noExtra dn sn
     | none => false) && noExtraCh scs rest
end

/-- syncedO lifts synced to an optional destination (an absent destination
mirrors nothing). -/
def syncedO : Option FNode → FNode → Bool
  | none, _ => false
  | some dn, s => synced dn s

/-- noExtraO lifts noExtra to an optional destination. -/
def noExtraO : Option FNode → FNode → Bool
  | none, _ => false
  | some dn, s => noExtra dn s

/-- Shallow agreement of two nodes: same type, same permission bits, and
same byte content when they are files (the per-path requirement of the
spec's invariant). -/
def agree : FNode → FNode → Bool
  | .file dp dc, .file sp sc => decide (dp = sp) && decide (dc = sc)
  | .dir dp _, .dir sp _ => decide (dp = sp)
  | _, _ => false

/-- The content phase of sync (everything before the deferred syncperms):
identical to the body of sync with the permission propagation stripped. -/
def syncContent (del : Bool) (pfx : FPath) (d : Option FNode) (s : FNode) :
    Option FNode × List Effect :=
  match s with
  | .file sp sc =>
    let pr := prepFile pfx d
    let eqr := equal pfx pr.1 (some (.file sp sc))
    if eqr.1 then (pr.1, pr.2 ++ eqr.2)
    else (some (.file (createPerm pr.1) sc), pr.2 ++ eqr.2 ++ copyTrace pfx sc.length)
  | .dir _sp scs =>
    let pr := prepDir pfx d
    let ch := syncChildren del pfx pr.2.1 scs
    if del then
      (some (.dir pr.1 (ch.1.filter (fun c => hasName scs c.1))),
       pr.2.2 ++ ch.2 ++ (ch.1.filter (fun c => !hasName scs c.1)).map
         (fun c => ⟨.dstR, pfx ++ [c.1], .removeAll⟩))
    else (some (.dir pr.1 ch.1), pr.2.2 ++ ch.2)

/-
  Part 2: basic lemmas about directory listings.
-/

theorem lookupChild_setChild_eq (cs : List (String × FNode)) (n : String) (v : FNode) :
    lookupChild (setChild cs n v) n = some v := by
  induction cs with
  | nil => simp [setChild, lookupChild]
  | cons hd tl ih =>
    obtain ⟨m, w⟩ := hd
    by_cases hm : m = n
    · simp [setChild, hm, lookupChild]
    · simp [setChild, hm, lookupChild, ih]

theorem lookupChild_setChild_ne (cs : List (String × FNode)) (m n : String) (v : FNode)
    (h : m ≠ n) : lookupChild (setChild cs m v) n = lookupChild cs n := by
  induction cs with
  | nil => simp [setChild, lookupChild, h]
  | cons hd tl ih =>
    obtain ⟨a, w⟩ := hd
    by_cases ha : a = m
    · subst ha
      simp [setChild, lookupChild, h]
    · by_cases hn : a = n
      · simp [setChild, ha, lookupChild, hn, Ne.symm h]
      · simp [setChild, ha, lookupChild, hn, ih]

theorem setChild_self (cs : List (String × FNode)) (n : String) (v : FNode)
    (h : lookupChild cs n = some v) : setChild cs n v = cs := by
  induction cs with
  | nil => simp [lookupChild] at h
  | cons hd tl ih =>
    obtain ⟨m, w⟩ := hd
    by_cases hm : m = n
    · subst hm
      simp [lookupChild] at h
      simp [setChild, h]
    · simp [lookupChild, hm] at h
      simp [setChild, hm, ih h]

theorem lookupChild_removeChild_ne (cs : List (String × FNode)) (m n : String)
    (h : m ≠ n) : lookupChild (removeChild cs m) n = lookupChild cs n := by
  induction cs with
  | nil => simp [removeChild]
  | cons hd tl ih =>
    obtain ⟨a, w⟩ := hd
    by_cases ha : a = m
    · subst ha
      simp [removeChild, lookupChild, h]
    · by_cases hn : a = n
      · simp [removeChild, ha, lookupChild, hn, Ne.symm h]
      · simp [removeChild, ha, lookupChild, hn, ih]

theorem hasName_eq_isSome (cs : List (String × FNode)) (n : String) :
    hasName cs n = (lookupChild cs n).isSome := by
  induction cs with
  | nil => simp [hasName, lookupChild]
  | cons hd tl ih =>
    obtain ⟨m, w⟩ := hd
    by_cases hm : m = n
    · simp [hasName, hm, lookupChild]
    · simp [hasName, hm, lookupChild, ih]

theorem lookupChild_mem (cs : List (String × FNode)) (n : String) (v : FNode)
    (h : lookupChild cs n = some v) : (n, v) ∈ cs := by
  induction cs with
  | nil => simp [lookupChild] at h
  | cons hd tl ih =>
    obtain ⟨m, w⟩ := hd
    by_cases hm : m = n
    · subst hm
      simp [lookupChild] at h
      simp [h]
    · simp [lookupChild, hm] at h
      exact List.mem_cons_of_mem _ (ih h)

theorem mem_lookupChild (cs : List (String × FNode)) (n : String) (v : FNode)
    (hmem : (n, v) ∈ cs) (hnd : namesNodup cs = true) : lookupChild cs n = some v := by
  induction cs with
  | nil => simp at hmem
  | cons hd tl ih =>
    obtain ⟨m, w⟩ := hd
    simp only [namesNodup, Bool.and_eq_true, Bool.not_eq_true'] at hnd
    obtain ⟨hnd1, hnd2⟩ := hnd
    rcases List.mem_cons.mp hmem with heq | htl
    · cases heq
      simp [lookupChild]
    · have hlk := ih htl hnd2
      have hm : m ≠ n := by
        intro hmn
        subst hmn
        rw [hasName_eq_isSome, hlk] at hnd1
        simp at hnd1
      simp [lookupChild, hm, hlk]


theorem lookupChild_filter (cs : List (String × FNode)) (f : String → Bool) (n : String) :
    lookupChild (cs.filter (fun c => f c.1)) n
      = if f n then lookupChild cs n else none := by
  induction cs with
  | nil => simp [lookupChild]
  | cons hd tl ih =>
    obtain ⟨m, w⟩ := hd
    by_cases hm : m = n
    · subst hm
      by_cases hf : f m
      · simp [List.filter, hf, lookupChild, ih]
      · simp [List.filter, hf, lookupChild, ih]
    · by_cases hf : f m
      · simp [List.filter, hf, lookupChild, hm, ih]
      · simp [List.filter, hf, lookupChild, hm, ih]

theorem hasName_filter (cs : List (String × FNode)) (f : String → Bool) (n : String)
    (h : hasName (cs.filter (fun c => f c.1)) n = true) : hasName cs n = true := by
  induction cs with
  | nil => simp [List.filter, hasName] at h
  | cons hd tl ih =>
    obtain ⟨m, w⟩ := hd
    by_cases hf : f m
    · simp only [List.filter, hf] at h
      simp only [hasName] at h ⊢
      rcases Bool.or_eq_true_iff.mp h with h1 | h2
      · simp [h1]
      · simp [ih h2]
    · simp only [List.filter, hf] at h
      simp only [hasName]
      simp [ih h]

theorem namesNodup_filter (cs : List (String × FNode)) (f : String → Bool)
    (h : namesNodup cs = true) : namesNodup (cs.filter (fun c => f c.1)) = true := by
  induction cs with
  | nil => simp [List.filter, namesNodup]
  | cons hd tl ih =>
    obtain ⟨m, w⟩ := hd
    simp only [namesNodup, Bool.and_eq_true, Bool.not_eq_true'] at h
    obtain ⟨h1, h2⟩ := h
    by_cases hf : f m
    · simp only [List.filter, hf, namesNodup, Bool.and_eq_true, Bool.not_eq_true']
      constructor
      · by_cases hh : hasName (tl.filter (fun c => f c.1)) m = true
        · rw [hasName_filter tl f m hh] at h1
          simp at h1
        · simpa using hh
      · exact ih h2
    · simp only [List.filter, hf]
      exact ih h2

theorem hasName_setChild (cs : List (String × FNode)) (n m : String) (v : FNode) :
    hasName (setChild cs n v) m = (decide (n = m) || hasName cs m) := by
  induction cs with
  | nil => simp [setChild, hasName]
  | cons hd tl ih =>
    obtain ⟨a, w⟩ := hd
    by_cases ha : a = n
    · subst ha
      by_cases hm : a = m
      · subst hm
        simp [setChild, hasName]
      · simp [setChild, hasName, hm]
    · by_cases hm : a = m
      · subst hm
        simp [setChild, ha, hasName]
      · simp [setChild, ha, hasName, hm, ih]

theorem namesNodup_setChild (cs : List (String × FNode)) (n : String) (v : FNode)
    (h : namesNodup cs = true) : namesNodup (setChild cs n v) = true := by
  induction cs with
  | nil => simp [setChild, namesNodup, hasName]
  | cons hd tl ih =>
    obtain ⟨a, w⟩ := hd
    simp only [namesNodup, Bool.and_eq_true, Bool.not_eq_true'] at h
    obtain ⟨h1, h2⟩ := h
    by_cases ha : a = n
    · subst ha
      simp [setChild, namesNodup, h1, h2]
    · simp only [setChild, ha, if_neg ha, namesNodup, Bool.and_eq_true, Bool.not_eq_true']
      refine ⟨?_, ih h2⟩
      rw [hasName_setChild]
      simp [h1, Ne.symm ha]

theorem wfCh_lookupChild (cs : List (String × FNode)) (n : String) (c : FNode)
    (h : lookupChild cs n = some c) (hw : wfCh cs = true) : wf c = true := by
  induction cs with
  | nil => simp [lookupChild] at h
  | cons hd tl ih =>
    obtain ⟨m, w⟩ := hd
    simp only [wfCh, Bool.and_eq_true] at hw
    by_cases hm : m = n
    · simp [lookupChild, hm] at h
      exact h ▸ hw.1
    · simp [lookupChild, hm] at h
      exact ih h hw.2


theorem size_mem (cs : List (String × FNode)) (n : String) (c : FNode)
    (h : (n, c) ∈ cs) : FNode.size c ≤ sizeL cs := by
  induction cs with
  | nil => simp at h
  | cons hd tl ih =>
    obtain ⟨m, w⟩ := hd
    rcases List.mem_cons.mp h with heq | htl
    · cases heq
      simp [sizeL]
    · calc FNode.size c ≤ sizeL tl := ih htl
        _ ≤ sizeL ((m, w) :: tl) := by simp [sizeL]

theorem size_lookupChild (cs : List (String × FNode)) (n : String) (c : FNode)
    (h : lookupChild cs n = some c) : FNode.size c ≤ sizeL cs :=
  size_mem cs n c (lookupChild_mem cs n c h)

/-
  Part 3: lemmas about the content comparator.
-/

theorem readLoopF_true_iff (fuel : Nat) (p : FPath) (a b : Bytes)
    (hlen : a.length = b.length) (hfu : a.length < fuel) :
    ((readLoopF p fuel a b).1 = true ↔ a = b) := by
  induction fuel generalizing a b with
  | zero => omega
  | succ fuel ih =>
    by_cases ht : a.take 1000 = b.take 1000
    · by_cases hz : min 1000 a.length = 0 ∧ min 1000 b.length = 0
      · have ha : a = [] := List.eq_nil_of_length_eq_zero (by omega)
        have hb : b = [] := List.eq_nil_of_length_eq_zero (by omega)
        subst ha; subst hb
        simp [readLoopF]
      · have hap : 1 ≤ a.length := by omega
        have hres : (readLoopF p (fuel + 1) a b).1
            = (readLoopF p fuel (a.drop 1000) (b.drop 1000)).1 := by
          simp only [readLoopF, ht, if_pos, hz]
          simp [hz]
        rw [hres]
        rw [ih (a.drop 1000) (b.drop 1000) (by simp; omega) (by simp; omega)]
        constructor
        · intro hd
          have := List.take_append_drop 1000 a
          rw [← this, ← List.take_append_drop 1000 b, ht, hd]
        · intro hab
          rw [hab]
    · have hres : (readLoopF p (fuel + 1) a b).1 = false := by
        simp [readLoopF, ht]
      rw [hres]
      constructor
      · intro hc
        exact absurd hc (by simp)
      · intro hab
        exact absurd (hab ▸ rfl) ht

theorem equal_file_true_iff (p : FPath) (pa pb : Nat) (ca cb : Bytes) :
    ((equal p (some (.file pa ca)) (some (.file pb cb))).1 = true ↔ ca = cb) := by
  by_cases hlen : ca.length = cb.length
  · simp only [equal, FNode.fsize, hlen, if_pos]
    simp only [readLoop, FNode.bytesOf]
    exact readLoopF_true_iff _ p ca cb hlen (by omega)
  · simp only [equal, FNode.fsize, hlen, if_neg, if_false]
    constructor
    · intro hc
      simp at hc
    · intro hab
      exact absurd (hab ▸ rfl) hlen

theorem equal_sizes_ne (p : FPath) (pa pb : Nat) (ca cb : Bytes)
    (hlen : ca.length ≠ cb.length) :
    equal p (some (.file pa ca)) (some (.file pb cb)) = (false, []) := by
  simp [equal, FNode.fsize, hlen]

theorem readLoopF_reads (fuel : Nat) (p : FPath) (a b : Bytes) :
    ∀ e ∈ (readLoopF p fuel a b).2, e.op.isRead = true := by
  induction fuel generalizing a b with
  | zero => simp [readLoopF]
  | succ fuel ih =>
    intro e he
    by_cases ht : a.take 1000 = b.take 1000
    · by_cases hz : min 1000 a.length = 0 ∧ min 1000 b.length = 0
      · simp only [readLoopF, ht, if_pos, hz, if_true] at he
        fin_cases he <;> rfl
      · simp only [readLoopF, ht, if_pos, hz, if_false] at he
        simp only [List.mem_append, List.mem_cons, List.mem_singleton] at he
        rcases he with (h | h | h) | h
        · rw [h]; rfl
        · rw [h]; rfl
        · simp at h
        · exact ih (a.drop 1000) (b.drop 1000) e h
    · simp only [readLoopF, ht, if_neg, if_false] at he
      fin_cases he <;> rfl

theorem equal_reads (p : FPath) (a b : Option FNode) :
    ∀ e ∈ (equal p a b).2, e.op.isRead = true := by
  intro e he
  match a, b with
  | none, _ => simp [equal] at he
  | some na, none => simp [equal] at he
  | some na, some nb =>
    by_cases hs : na.fsize = nb.fsize
    · simp only [equal, hs, if_pos, List.mem_cons] at he
      rcases he with h | h | h
      · rw [h]; rfl
      · rw [h]; rfl
      · exact readLoopF_reads _ p _ _ e h
    · simp [equal, hs] at he

theorem isRead_not_isMutation (op : FsOp) (h : op.isRead = true) :
    op.isMutation = false := by
  cases op <;> simp_all [FsOp.isRead, FsOp.isMutation]

theorem isRead_not_isWrite (op : FsOp) (h : op.isRead = true) :
    op.isWrite = false := by
  cases op <;> simp_all [FsOp.isRead, FsOp.isWrite]

theorem equal_true_isSome (p : FPath) (a b : Option FNode)
    (h : (equal p a b).1 = true) : a.isSome = true := by
  match a, b with
  | none, _ => simp [equal] at h
  | some na, _ => rfl

/-
  Part 4: basic lemmas about syncperms and sync.
-/

@[simp]
theorem withPerm_perm (n : FNode) (q : Nat) : (n.withPerm q).perm = q := by
  cases n <;> rfl

@[simp]
theorem withPerm_isDir (n : FNode) (q : Nat) : (n.withPerm q).isDir = n.isDir := by
  cases n <;> rfl

@[simp]
theorem withPerm_bytesOf (n : FNode) (q : Nat) : (n.withPerm q).bytesOf = n.bytesOf := by
  cases n <;> rfl

@[simp]
theorem withPerm_childrenOf (n : FNode) (q : Nat) :
    (n.withPerm q).childrenOf = n.childrenOf := by
  cases n <;> rfl

theorem syncperms_some_some (pfx : FPath) (dn sn : FNode) :
    syncperms pfx (some dn) (some sn)
      = if dn.perm = sn.perm then (some dn, [])
        else (some (dn.withPerm sn.perm), [⟨.dstR, pfx, .chmod sn.perm⟩]) := rfl

theorem syncperms_fst_some (pfx : FPath) (dn : FNode) (s : Option FNode) :
    ∃ dn2, (syncperms pfx (some dn) s).1 = some dn2 := by
  cases s with
  | none => exact ⟨dn, rfl⟩
  | some sn =>
    rw [syncperms_some_some]
    by_cases h : dn.perm = sn.perm
    · exact ⟨dn, by simp [h]⟩
    · exact ⟨dn.withPerm sn.perm, by simp [h]⟩

theorem syncperms_trace_chmod (pfx : FPath) (d s : Option FNode) :
    ∀ e ∈ (syncperms pfx d s).2, ∃ q, e.op = FsOp.chmod q ∧ e.root = .dstR ∧ e.path = pfx := by
  intro e he
  match d, s with
  | none, _ => simp [syncperms] at he
  | some dn, none => simp [syncperms] at he
  | some dn, some sn =>
    rw [syncperms_some_some] at he
    by_cases h : dn.perm = sn.perm
    · simp [h] at he
    · simp [h] at he
      exact ⟨sn.perm, by simp [he]⟩

theorem sync_file_def (del : Bool) (pfx : FPath) (d : Option FNode) (sp : Nat) (sc : Bytes) :
    sync del pfx d (.file sp sc) =
    (let pr := prepFile pfx d
     let eqr := equal pfx pr.1 (some (.file sp sc))
     let body : Option FNode × List Effect :=
       if eqr.1 then (pr.1, pr.2 ++ eqr.2)
       else (some (.file (createPerm pr.1) sc), pr.2 ++ eqr.2 ++ copyTrace pfx sc.length)
     let pm := syncperms pfx body.1 (some (.file sp sc))
     (pm.1, body.2 ++ pm.2)) := rfl

theorem sync_dir_def (del : Bool) (pfx : FPath) (d : Option FNode) (sp : Nat)
    (scs : List (String × FNode)) :
    sync del pfx d (.dir sp scs) =
    (let pr := prepDir pfx d
     let ch := syncChildren del pfx pr.2.1 scs
     let body : Option FNode × List Effect :=
       if del then
         (some (.dir pr.1 (ch.1.filter (fun c => hasName scs c.1))),
          pr.2.2 ++ ch.2 ++ (ch.1.filter (fun c => !hasName scs c.1)).map
            (fun c => ⟨.dstR, pfx ++ [c.1], .removeAll⟩))
       else (some (.dir pr.1 ch.1), pr.2.2 ++ ch.2)
     let pm := syncperms pfx body.1 (some (.dir sp scs))
     (pm.1, body.2 ++ pm.2)) := rfl

theorem syncChildren_nil (del : Bool) (pfx : FPath) (cs : List (String × FNode)) :
    syncChildren del pfx cs [] = (cs, []) := rfl

theorem syncChildren_cons (del : Bool) (pfx : FPath) (cs : List (String × FNode))
    (n : String) (sn : FNode) (rest : List (String × FNode)) :
    syncChildren del pfx cs ((n, sn) :: rest) =
    (let r := sync del (pfx ++ [n]) (lookupChild cs n) sn
     let cs1 := match r.1 with
       | some v => setChild cs n v
       | none => removeChild cs n
     let r2 := syncChildren del pfx cs1 rest
     (r2.1, r.2 ++ r2.2)) := rfl

theorem sync_file_result (del : Bool) (pfx : FPath) (d : Option FNode) (sp : Nat) (sc : Bytes) :
    (sync del pfx d (.file sp sc)).1 = some (.file sp sc) := by
  rw [sync_file_def]
  match d with
  | none =>
    simp only [prepFile, equal]
    by_cases h : (0o666 : Nat) = sp <;>
      simp [createPerm, syncperms_some_some, FNode.perm, FNode.withPerm, h]
  | some (.dir dp dcs) =>
    simp only [prepFile, equal]
    by_cases h : (0o666 : Nat) = sp <;>
      simp [createPerm, syncperms_some_some, FNode.perm, FNode.withPerm, h]
  | some (.file dp dc) =>
    simp only [prepFile]
    cases hE : (equal pfx (some (.file dp dc)) (some (.file sp sc))).1 with
    | true =>
      have hc : dc = sc := (equal_file_true_iff pfx dp sp dc sc).mp hE
      subst hc
      by_cases h : dp = sp <;>
        simp [hE, syncperms_some_some, FNode.perm, FNode.withPerm, h]
    | false =>
      by_cases h : dp = sp <;>
        simp [hE, createPerm, syncperms_some_some, FNode.perm, FNode.withPerm, h]

theorem sync_fst_some (del : Bool) (pfx : FPath) (d : Option FNode) (s : FNode) :
    ∃ dn, (sync del pfx d s).1 = some dn := by
  cases s with
  | file sp sc => exact ⟨.file sp sc, sync_file_result del pfx d sp sc⟩
  | dir sp scs =>
    rw [sync_dir_def]
    simp only []
    by_cases hdel : del = true
    · subst hdel
      simp only [if_true]
      exact syncperms_fst_some pfx _ _
    · rw [Bool.not_eq_true] at hdel
      subst hdel
      simp only [Bool.false_eq_true, if_false]
      exact syncperms_fst_some pfx _ _

/-
  Part 5: the mirror predicates used to state the postcondition.
-/

theorem syncedCh_iff (dcs scs : List (String × FNode)) :
    syncedCh dcs scs = true ↔
      ∀ pr ∈ scs, ∃ dn, lookupChild dcs pr.1 = some dn ∧ synced dn pr.2 = true := by
  induction scs with
  | nil => simp [syncedCh]
  | cons hd tl ih =>
    obtain ⟨n, sn⟩ := hd
    simp only [syncedCh, Bool.and_eq_true, ih, List.mem_cons]
    constructor
    · rintro ⟨h1, h2⟩ pr hpr
      rcases hpr with heq | htl
      · subst heq
        cases hlk : lookupChild dcs n with
        | none => rw [hlk] at h1; simp at h1
        | some dn => rw [hlk] at h1; exact ⟨dn, rfl, h1⟩
      · exact h2 pr htl
    · intro h
      constructor
      · obtain ⟨dn, hlk, hs⟩ := h (n, sn) (Or.inl rfl)
        rw [hlk]
        exact hs
      · intro pr hpr
        exact h pr (Or.inr hpr)

theorem noExtraCh_iff (scs dcs : List (String × FNode)) :
    noExtraCh scs dcs = true ↔
      ∀ pr ∈ dcs, ∃ sn, lookupChild scs pr.1 = some sn ∧ noExtra pr.2 sn = true := by
  induction dcs with
  | nil => simp [noExtraCh]
  | cons hd tl ih =>
    obtain ⟨n, dn⟩ := hd
    simp only [noExtraCh, Bool.and_eq_true, ih, List.mem_cons]
    constructor
    · rintro ⟨h1, h2⟩ pr hpr
      rcases hpr with heq | htl
      · subst heq
        cases hlk : lookupChild scs n with
        | none => rw [hlk] at h1; simp at h1
        | some sn => rw [hlk] at h1; exact ⟨sn, rfl, h1⟩
      · exact h2 pr htl
    · intro h
      constructor
      · obtain ⟨sn, hlk, hs⟩ := h (n, dn) (Or.inl rfl)
        rw [hlk]
        exact hs
      · intro pr hpr
        exact h pr (Or.inr hpr)

theorem synced_isDir (dn sn : FNode) (h : synced dn sn = true) : dn.isDir = sn.isDir := by
  cases dn <;> cases sn <;> simp_all [synced, FNode.isDir]

theorem synced_agree (dn sn : FNode) (h : synced dn sn = true) : agree dn sn = true := by
  cases dn <;> cases sn <;> simp_all [synced, agree]

/-
  Part 6: behaviour of the child loop.
-/

theorem syncChildren_lookup_untouched (del : Bool) (pfx : FPath)
    (scs : List (String × FNode)) (m : String) (h : hasName scs m = false) :
    ∀ cs, lookupChild (syncChildren del pfx cs scs).1 m = lookupChild cs m := by
  induction scs with
  | nil => intro cs; rw [syncChildren_nil]
  | cons hd tl ih =>
    obtain ⟨n, sn⟩ := hd
    simp only [hasName, Bool.or_eq_false_iff, decide_eq_false_iff_not] at h
    intro cs
    rw [syncChildren_cons]
    simp only []
    obtain ⟨v, hv⟩ := sync_fst_some del (pfx ++ [n]) (lookupChild cs n) sn
    rw [hv]
    rw [ih (by simpa using h.2) (setChild cs n v)]
    exact lookupChild_setChild_ne cs n m v h.1

theorem syncChildren_lookup_processed (del : Bool) (pfx : FPath)
    (scs : List (String × FNode)) (n : String) (sn : FNode)
    (hnd : namesNodup scs = true) (h : lookupChild scs n = some sn) :
    ∀ cs, lookupChild (syncChildren del pfx cs scs).1 n
      = (sync del (pfx ++ [n]) (lookupChild cs n) sn).1 := by
  induction scs with
  | nil => simp [lookupChild] at h
  | cons hd tl ih =>
    obtain ⟨m, sm⟩ := hd
    simp only [namesNodup, Bool.and_eq_true, Bool.not_eq_true'] at hnd
    intro cs
    rw [syncChildren_cons]
    simp only []
    obtain ⟨v, hv⟩ := sync_fst_some del (pfx ++ [m]) (lookupChild cs m) sm
    rw [hv]
    by_cases hm : m = n
    · subst hm
      simp only [lookupChild, if_pos] at h
      rw [Option.some_inj] at h
      subst h
      rw [syncChildren_lookup_untouched del pfx tl m hnd.1 (setChild cs m v)]
      rw [lookupChild_setChild_eq, hv]
    · simp only [lookupChild, hm, if_neg, if_false] at h
      rw [ih hnd.2 h (setChild cs m v)]
      rw [lookupChild_setChild_ne cs m n v hm]

theorem syncChildren_namesNodup (del : Bool) (pfx : FPath)
    (scs : List (String × FNode)) :
    ∀ cs, namesNodup cs = true → namesNodup (syncChildren del pfx cs scs).1 = true := by
  induction scs with
  | nil => intro cs h; rw [syncChildren_nil]; exact h
  | cons hd tl ih =>
    obtain ⟨n, sn⟩ := hd
    intro cs h
    rw [syncChildren_cons]
    simp only []
    obtain ⟨v, hv⟩ := sync_fst_some del (pfx ++ [n]) (lookupChild cs n) sn
    rw [hv]
    exact ih (setChild cs n v) (namesNodup_setChild cs n v h)

/-
  Part 7: the synchronization invariant.
-/

theorem size_pos (s : FNode) : 1 ≤ FNode.size s := by
  cases s with
  | file p c => simp [FNode.size]
  | dir p cs => show 1 ≤ 1 + sizeL cs; omega

theorem synced_of_syncperms_dir (pfx : FPath) (bp sp : Nat)
    (csB scs : List (String × FNode)) (hc : syncedCh csB scs = true) :
    syncedO (syncperms pfx (some (.dir bp csB)) (some (.dir sp scs))).1 (.dir sp scs) = true := by
  rw [syncperms_some_some]
  by_cases h : (FNode.dir bp csB).perm = (FNode.dir sp scs).perm
  · simp only [if_pos h]
    have hbp : bp = sp := h
    simp [syncedO, synced, hbp, hc]
  · simp only [if_neg h]
    simp [syncedO, FNode.withPerm, synced, FNode.perm, hc]

theorem sync_synced_bounded (k : Nat) :
    ∀ (s : FNode) (del : Bool) (pfx : FPath) (d : Option FNode),
      FNode.size s ≤ k → wf s = true → syncedO (sync del pfx d s).1 s = true := by
  induction k with
  | zero =>
    intro s del pfx d hk
    exact absurd hk (by have := size_pos s; omega)
  | succ k ih =>
    intro s del pfx d hk hwf
    cases s with
    | file sp sc =>
      rw [sync_file_result]
      simp [syncedO, synced]
    | dir sp scs =>
      simp only [wf, Bool.and_eq_true] at hwf
      obtain ⟨hnd, hwfCh⟩ := hwf
      have hIH : ∀ n sn, (n, sn) ∈ scs → ∀ pfx2 d2,
          syncedO (sync del pfx2 d2 sn).1 sn = true := by
        intro n sn hmem pfx2 d2
        apply ih sn del pfx2 d2
        · have h1 := size_mem scs n sn hmem
          have h2 : FNode.size (.dir sp scs) = 1 + sizeL scs := rfl
          omega
        · exact wfCh_lookupChild scs n sn (mem_lookupChild scs n sn hmem hnd) hwfCh
      have hcore : ∀ cs0 : List (String × FNode), ∀ pr ∈ scs,
          ∃ dn, lookupChild (syncChildren del pfx cs0 scs).1 pr.1 = some dn
            ∧ synced dn pr.2 = true := by
        intro cs0 pr hpr
        obtain ⟨n, sn⟩ := pr
        have hlk := mem_lookupChild scs n sn hpr hnd
        rw [syncChildren_lookup_processed del pfx scs n sn hnd hlk cs0]
        obtain ⟨dn, hdn⟩ := sync_fst_some del (pfx ++ [n]) (lookupChild cs0 n) sn
        refine ⟨dn, hdn, ?_⟩
        have hh := hIH n sn hpr (pfx ++ [n]) (lookupChild cs0 n)
        rw [hdn] at hh
        simpa [syncedO] using hh
      have hcoreF : ∀ cs0 : List (String × FNode), ∀ pr ∈ scs,
          ∃ dn, lookupChild ((syncChildren del pfx cs0 scs).1.filter
              (fun c => hasName scs c.1)) pr.1 = some dn ∧ synced dn pr.2 = true := by
        intro cs0 pr hpr
        obtain ⟨dn, hdn, hs⟩ := hcore cs0 pr hpr
        refine ⟨dn, ?_, hs⟩
        rw [lookupChild_filter]
        have hh : hasName scs pr.1 = true := by
          rw [hasName_eq_isSome, mem_lookupChild scs pr.1 pr.2 hpr hnd]
          rfl
        rw [hh, if_pos rfl, hdn]
      rw [sync_dir_def]
      simp only []
      by_cases hdel : del = true
      · subst hdel
        simp only [if_true]
        apply synced_of_syncperms_dir
        rw [syncedCh_iff]
        exact hcoreF (prepDir pfx d).2.1
      · rw [Bool.not_eq_true] at hdel
        subst hdel
        simp only [Bool.false_eq_true, if_false]
        apply synced_of_syncperms_dir
        rw [syncedCh_iff]
        exact hcore (prepDir pfx d).2.1

theorem sync_synced (del : Bool) (pfx : FPath) (d : Option FNode) (s : FNode)
    (hwf : wf s = true) : syncedO (sync del pfx d s).1 s = true :=
  sync_synced_bounded (FNode.size s) s del pfx d le_rfl hwf

theorem wfO_lookupChild (cs : List (String × FNode)) (n : String)
    (hw : wfCh cs = true) : wfO (lookupChild cs n) = true := by
  cases hlk : lookupChild cs n with
  | none => rfl
  | some c => exact wfCh_lookupChild cs n c hlk hw

theorem prepDir_children_wf (pfx : FPath) (d : Option FNode) (hd : wfO d = true) :
    namesNodup (prepDir pfx d).2.1 = true ∧ wfCh (prepDir pfx d).2.1 = true := by
  match d with
  | none => exact ⟨rfl, rfl⟩
  | some (.file dp dc) => exact ⟨rfl, rfl⟩
  | some (.dir dp dcs) =>
    simp only [wfO, wf, Bool.and_eq_true] at hd
    exact ⟨hd.1, hd.2⟩

theorem noExtra_of_syncperms_dir (pfx : FPath) (bp sp : Nat)
    (csB scs : List (String × FNode)) (hc : noExtraCh scs csB = true) :
    noExtraO (syncperms pfx (some (.dir bp csB)) (some (.dir sp scs))).1 (.dir sp scs) = true := by
  rw [syncperms_some_some]
  by_cases h : (FNode.dir bp csB).perm = (FNode.dir sp scs).perm
  · simp only [if_pos h]
    simp [noExtraO, noExtra, hc]
  · simp only [if_neg h]
    simp [noExtraO, FNode.withPerm, noExtra, hc]

theorem sync_noExtra_bounded (k : Nat) :
    ∀ (s : FNode) (pfx : FPath) (d : Option FNode),
      FNode.size s ≤ k → wf s = true → wfO d = true →
      noExtraO (sync true pfx d s).1 s = true := by
  induction k with
  | zero =>
    intro s pfx d hk
    exact absurd hk (by have := size_pos s; omega)
  | succ k ih =>
    intro s pfx d hk hwf hd
    cases s with
    | file sp sc =>
      rw [sync_file_result]
      simp [noExtraO, noExtra]
    | dir sp scs =>
      simp only [wf, Bool.and_eq_true] at hwf
      obtain ⟨hnd, hwfCh⟩ := hwf
      obtain ⟨hnd0, hwf0⟩ := prepDir_children_wf pfx d hd
      rw [sync_dir_def]
      simp only [if_true]
      apply noExtra_of_syncperms_dir
      rw [noExtraCh_iff]
      intro pr hpr
      obtain ⟨n, dn⟩ := pr
      have hmem := List.mem_filter.mp hpr
      obtain ⟨hmem1, hhas⟩ := hmem
      have hndB : namesNodup ((syncChildren true pfx (prepDir pfx d).2.1 scs).1.filter
          (fun c => hasName scs c.1)) = true :=
        namesNodup_filter _ _ (syncChildren_namesNodup true pfx scs _ hnd0)
      have hlkB := mem_lookupChild _ n dn hpr hndB
      rw [lookupChild_filter] at hlkB
      have hhas2 : hasName scs n = true := by simpa using hhas
      rw [hhas2, if_pos rfl] at hlkB
      obtain ⟨sn, hsn⟩ : ∃ sn, lookupChild scs n = some sn := by
        rw [hasName_eq_isSome] at hhas2
        exact Option.isSome_iff_exists.mp hhas2
      refine ⟨sn, hsn, ?_⟩
      rw [syncChildren_lookup_processed true pfx scs n sn hnd hsn _] at hlkB
      have hIH := ih sn (pfx ++ [n]) (lookupChild (prepDir pfx d).2.1 n)
        (by
          have h1 := size_lookupChild scs n sn hsn
          have h2 : FNode.size (.dir sp scs) = 1 + sizeL scs := rfl
          omega)
        (wfCh_lookupChild scs n sn hsn hwfCh)
        (wfO_lookupChild _ n hwf0)
      rw [hlkB] at hIH
      simpa [noExtraO] using hIH

/-
  Part 8: path-level consequences of the mirror predicates.
-/

theorem covers_of_synced (p : FPath) :
    ∀ (dn sn : FNode), synced dn sn = true →
      ∀ x, sn.lookupPath p = some x →
        ∃ y, dn.lookupPath p = some y ∧ agree y x = true := by
  induction p with
  | nil =>
    intro dn sn hs x hx
    rw [FNode.lookupPath, Option.some_inj] at hx
    subst hx
    exact ⟨dn, by rw [FNode.lookupPath], synced_agree dn sn hs⟩
  | cons a rest ih =>
    intro dn sn hs x hx
    cases sn with
    | file sp sc => simp [FNode.lookupPath] at hx
    | dir sp scs =>
      cases dn with
      | file dp dc => simp [synced] at hs
      | dir dp dcs =>
        simp only [synced, Bool.and_eq_true] at hs
        rw [FNode.lookupPath] at hx
        cases hlc : lookupChild scs a with
        | none => rw [hlc] at hx; simp at hx
        | some sc =>
          rw [hlc] at hx
          obtain ⟨dc, hdc, hsync⟩ := (syncedCh_iff dcs scs).mp hs.2 (a, sc)
            (lookupChild_mem scs a sc hlc)
          obtain ⟨y, hy, hag⟩ := ih dc sc hsync x hx
          refine ⟨y, ?_, hag⟩
          rw [FNode.lookupPath, hdc]
          exact hy

theorem noExtra_paths (p : FPath) :
    ∀ (dn sn : FNode), synced dn sn = true → noExtra dn sn = true →
      (dn.lookupPath p).isSome = true → (sn.lookupPath p).isSome = true := by
  induction p with
  | nil =>
    intro dn sn _ _ _
    rw [FNode.lookupPath]
    rfl
  | cons a rest ih =>
    intro dn sn hs hne hx
    cases dn with
    | file dp dc => simp [FNode.lookupPath] at hx
    | dir dp dcs =>
      cases sn with
      | file sp sc => simp [synced] at hs
      | dir sp scs =>
        simp only [synced, Bool.and_eq_true] at hs
        simp only [noExtra] at hne
        rw [FNode.lookupPath] at hx
        cases hlc : lookupChild dcs a with
        | none => rw [hlc] at hx; simp at hx
        | some dc =>
          rw [hlc] at hx
          obtain ⟨sc, hsc, hnec⟩ := (noExtraCh_iff scs dcs).mp hne (a, dc)
            (lookupChild_mem dcs a dc hlc)
          obtain ⟨dc2, hdc2, hsync2⟩ := (syncedCh_iff dcs scs).mp hs.2 (a, sc)
            (lookupChild_mem scs a sc hsc)
          rw [hlc] at hdc2
          rw [Option.some_inj] at hdc2
          subst hdc2
          rw [FNode.lookupPath, hsc]
          exact ih dc sc hsync2 hnec hx

/-- Claim C1: if Sync (del = false) or SyncDel (del = true) returns
success, every path that exists under the source has a corresponding path
under the resulting destination with identical type, identical byte
content if a file, and identical permission bits; and in deletion mode the
resulting destination contains no path absent from the source. -/
theorem claim_C1 (del : Bool) (d s d2 : Option FNode) (tr : List Effect)
    (hwd : wfO d = true) (hws : wfO s = true)
    (hok : SyncFs del d s = .ok (d2, tr)) :
    (∀ p x, lookupPathO s p = some x →
       ∃ y, lookupPathO d2 p = some y ∧ agree y x = true)
    ∧ (del = true → ∀ p, (lookupPathO d2 p).isSome = true →
        (lookupPathO s p).isSome = true) := by
  unfold SyncFs at hok
  cases hcd : checkDir d s with
  | error e => rw [hcd] at hok; simp at hok
  | ok b =>
    rw [hcd] at hok
    cases b with
    | true => simp at hok
    | false =>
      cases s with
      | none => simp at hok
      | some sn =>
        simp only [Except.ok.injEq] at hok
        have hd2 : d2 = (sync del [] d sn).1 := by
          rw [hok]
        have hsy := sync_synced del [] d sn (by simpa [wfO] using hws)
        cases hres : (sync del [] d sn).1 with
        | none => rw [hres] at hsy; simp [syncedO] at hsy
        | some dn =>
          rw [hres] at hsy
          simp only [syncedO] at hsy
          subst hd2
          rw [hres]
          constructor
          · intro p x hx
            exact covers_of_synced p dn sn hsy x hx
          · intro hdel p hp
            subst hdel
            have hne := sync_noExtra_bounded (FNode.size sn) sn [] d le_rfl
              (by simpa [wfO] using hws) hwd
            rw [hres] at hne
            simp only [noExtraO] at hne
            exact noExtra_paths p dn sn hsy hne hp

/-- Witness for claim C1 at a concrete input: syncing the file [1, 2] with
permission 644 into an empty destination in deletion mode. -/
theorem claim_C1_witness :
    (∀ p x, lookupPathO (some (.file 0o644 [1, 2])) p = some x →
       ∃ y, lookupPathO (some (.file 0o644 [1, 2])) p = some y ∧ agree y x = true)
    ∧ (true = true → ∀ p, (lookupPathO (some (.file 0o644 [1, 2])) p).isSome = true →
        (lookupPathO (some (.file 0o644 [1, 2])) p).isSome = true) :=
  claim_C1 true none (some (.file 0o644 [1, 2])) (some (.file 0o644 [1, 2]))
    (copyTrace [] 2 ++ [Effect.mk .dstR [] (.chmod 0o644)]) rfl rfl (by rfl)

/-
  Part 9: characterizations used by several claims.
-/

theorem sync_eq_content_perms (del : Bool) (pfx : FPath) (d : Option FNode) (s : FNode) :
    sync del pfx d s
      = ((syncperms pfx (syncContent del pfx d s).1 (some s)).1,
         (syncContent del pfx d s).2
           ++ (syncperms pfx (syncContent del pfx d s).1 (some s)).2) := by
  cases s <;> rfl

/-- Replacing a destination directory (of any contents) by a source file:
the directory is removed recursively, the file is copied afresh, and the
permission phase leaves the source's permission bits. -/
theorem sync_over_dir_char (del : Bool) (pfx : FPath) (dp : Nat)
    (dcs : List (String × FNode)) (sp : Nat) (sc : Bytes) :
    sync del pfx (some (.dir dp dcs)) (.file sp sc)
      = (some (.file sp sc),
         ⟨.dstR, pfx, .removeAll⟩ :: (copyTrace pfx sc.length
           ++ if (0o666 : Nat) = sp then [] else [⟨.dstR, pfx, .chmod sp⟩])) := by
  rw [sync_file_def]
  simp only [prepFile, equal]
  by_cases h : (0o666 : Nat) = sp <;>
    simp [createPerm, syncperms_some_some, FNode.perm, FNode.withPerm, h, copyTrace]

/-- Claim C2: SyncFs (shared body of Sync and SyncDel) fails with the
guard error ErrFileOverDir exactly when the destination is a non-empty
directory and the source is a file at the top level; and when it does, no
filesystem change has been made (the destination is untouched). -/
theorem claim_C2 (del : Bool) (d s : Option FNode) :
    (SyncFs del d s = .error .fileOverDir ↔
      ∃ dp dcs sp sc, d = some (.dir dp dcs) ∧ dcs ≠ [] ∧ s = some (.file sp sc))
    ∧ (SyncFs del d s = .error .fileOverDir → fsAfter del d s = d) := by
  constructor
  · match d, s with
    | none, none => simp [SyncFs, checkDir]
    | none, some sn => simp [SyncFs, checkDir]
    | some (.file dp dc), none => simp [SyncFs, checkDir]
    | some (.dir dp dcs), none => simp [SyncFs, checkDir]
    | some (.file dp dc), some sn => simp [SyncFs, checkDir]
    | some (.dir dp dcs), some (.dir sp scs) => simp [SyncFs, checkDir]
    | some (.dir dp dcs), some (.file sp sc) =>
      by_cases hne : dcs = []
      · subst hne
        simp [SyncFs, checkDir]
      · have hlen : 0 < dcs.length := List.length_pos.mpr hne
        simp only [SyncFs, checkDir, hlen, decide_True]
        constructor
        · intro _
          exact ⟨dp, dcs, sp, sc, rfl, hne, rfl⟩
        · intro _
          trivial
  · intro h
    simp [fsAfter, h]

/-- Witness for claim C2: a destination directory holding one file, a
source file; SyncDel fails with the guard error and the destination stays. -/
theorem claim_C2_witness :
    SyncFs true (some (.dir 0o755 [("x", .file 0o644 [7])])) (some (.file 0o600 [9]))
      = .error .fileOverDir
    ∧ fsAfter true (some (.dir 0o755 [("x", .file 0o644 [7])])) (some (.file 0o600 [9]))
      = some (.dir 0o755 [("x", .file 0o644 [7])]) := by
  have h := claim_C2 true (some (.dir 0o755 [("x", .file 0o644 [7])])) (some (.file 0o600 [9]))
  have h1 := h.1.mpr ⟨0o755, [("x", .file 0o644 [7])], 0o600, [9], rfl, by simp, rfl⟩
  exact ⟨h1, h.2 h1⟩

/-- Claim C4: at any path (the recursive synchronizer has no guard), a
destination directory, even a non-empty one, standing where the source has
a file is removed recursively and entirely, and the source file is copied:
afterwards the destination at that path is a file with exactly the
source's bytes and permission bits, and the old directory's contents are
gone. -/
theorem claim_C4 (del : Bool) (pfx : FPath) (dp : Nat)
    (dcs : List (String × FNode)) (sp : Nat) (sc : Bytes) :
    (sync del pfx (some (.dir dp dcs)) (.file sp sc)).1 = some (.file sp sc)
    ∧ Effect.mk .dstR pfx .removeAll ∈ (sync del pfx (some (.dir dp dcs)) (.file sp sc)).2
    ∧ Effect.mk .dstR pfx (.writeN sc.length)
        ∈ (sync del pfx (some (.dir dp dcs)) (.file sp sc)).2 := by
  rw [sync_over_dir_char]
  refine ⟨rfl, by simp, ?_⟩
  simp [copyTrace]

/-- Claim C6: the content comparator on two existing files answers
byte-identity of their contents; and when the sizes differ it answers
false with an empty trace (no open, no read). -/
theorem claim_C6 (p : FPath) (pa pb : Nat) (ca cb : Bytes) :
    ((equal p (some (.file pa ca)) (some (.file pb cb))).1 = true ↔ ca = cb)
    ∧ (ca.length ≠ cb.length →
        equal p (some (.file pa ca)) (some (.file pb cb)) = (false, [])) :=
  ⟨equal_file_true_iff p pa pb ca cb, equal_sizes_ne p pa pb ca cb⟩

/-- Witness for claim C6: files of sizes 1 and 2 compare not equal with an
empty trace. -/
theorem claim_C6_witness :
    equal [] (some (.file 0 [1])) (some (.file 0 [2, 3])) = (false, []) :=
  (claim_C6 [] 0 0 [1] [2, 3]).2 (by decide)

/-- Counterexample for claim C9 as stated: on two zero-length files the
comparator does answer true, but its trace does contain open and read
calls (one Read per file, returning 0 bytes), so it is not the case that
no reads beyond the size check are performed. -/
theorem claim_C9_cex :
    (equal [] (some (.file 0o644 [])) (some (.file 0o644 []))).1 = true
    ∧ ((equal [] (some (.file 0o644 [])) (some (.file 0o644 []))).2.any
        (fun e => e.op.isRead)) = true := by
  decide

/-- Claim C9 (amended): on two zero-length files the comparator answers
true, having read zero content bytes; both files are still opened and one
Read call per file is made, each returning 0 bytes. -/
theorem claim_C9 (p : FPath) (pa pb : Nat) :
    equal p (some (.file pa [])) (some (.file pb []))
      = (true, [⟨.dstR, p, .openR⟩, ⟨.srcR, p, .openR⟩,
                ⟨.dstR, p, .readN 0⟩, ⟨.srcR, p, .readN 0⟩]) := by
  rfl

/-- Claim C10: a missing path on either side makes the comparator answer
false (not an error); sync relies on this after removing a destination
directory standing where the source has a file: the comparison against the
now-absent destination answers false, so a fresh copy (os.Create and a
full write) is performed. -/
theorem claim_C10 :
    (∀ (p : FPath) (x : Option FNode),
      equal p none x = (false, []) ∧ equal p x none = (false, []))
    ∧ (∀ (del : Bool) (pfx : FPath) (dp : Nat) (dcs : List (String × FNode))
        (sp : Nat) (sc : Bytes),
        (sync del pfx (some (.dir dp dcs)) (.file sp sc)).1 = some (.file sp sc)
        ∧ Effect.mk .dstR pfx .create
            ∈ (sync del pfx (some (.dir dp dcs)) (.file sp sc)).2) := by
  constructor
  · intro p x
    cases x with
    | none => exact ⟨rfl, rfl⟩
    | some nx => exact ⟨rfl, rfl⟩
  · intro del pfx dp dcs sp sc
    rw [sync_over_dir_char]
    refine ⟨rfl, ?_⟩
    simp [copyTrace]

/-- Claim C5: permission propagation.  The propagator is a silent no-op if
either path is missing; on two existing paths it makes the destination's
permission bits equal to the source's exactly when they differ, touching
only the permission bits (type, content and children unchanged) and
emitting a chmod exactly when the bits differ.  Inside sync it runs after
the content phase, on the content phase's result, regardless of whether
content changed.  For identical file content with differing permission
bits, sync ends with the destination file carrying the source's bits, no
byte was copied, and a chmod was performed. -/
theorem claim_C5 (pfx : FPath) (dn sn : FNode) (s0 d0 : Option FNode) (del : Bool)
    (s1 : FNode) (dp sp : Nat) (c : Bytes) (hne : dp ≠ sp) :
    (syncperms pfx none s0 = (none, []) ∧ syncperms pfx (some dn) none = (some dn, []))
    ∧ ((syncperms pfx (some dn) (some sn)).1
        = some (if dn.perm = sn.perm then dn else dn.withPerm sn.perm)
       ∧ (syncperms pfx (some dn) (some sn)).2
        = (if dn.perm = sn.perm then [] else [⟨.dstR, pfx, .chmod sn.perm⟩])
       ∧ (dn.withPerm sn.perm).isDir = dn.isDir
       ∧ (dn.withPerm sn.perm).bytesOf = dn.bytesOf
       ∧ (dn.withPerm sn.perm).childrenOf = dn.childrenOf
       ∧ (dn.withPerm sn.perm).perm = sn.perm)
    ∧ (sync del pfx d0 s1
        = ((syncperms pfx (syncContent del pfx d0 s1).1 (some s1)).1,
           (syncContent del pfx d0 s1).2
             ++ (syncperms pfx (syncContent del pfx d0 s1).1 (some s1)).2))
    ∧ (sync del pfx (some (.file dp c)) (.file sp c)
        = (some (.file sp c),
           (equal pfx (some (.file dp c)) (some (.file sp c))).2
             ++ [⟨.dstR, pfx, .chmod sp⟩])
       ∧ (∀ e ∈ (sync del pfx (some (.file dp c)) (.file sp c)).2, e.op.isWrite = false)
       ∧ Effect.mk .dstR pfx (.chmod sp) ∈ (sync del pfx (some (.file dp c)) (.file sp c)).2) := by
  refine ⟨⟨rfl, rfl⟩, ?_, sync_eq_content_perms del pfx d0 s1, ?_⟩
  · rw [syncperms_some_some]
    by_cases h : dn.perm = sn.perm <;> simp [h]
  · have hT : (equal pfx (some (.file dp c)) (some (.file sp c))).1 = true :=
      (equal_file_true_iff pfx dp sp c c).mpr rfl
    have hchar : sync del pfx (some (.file dp c)) (.file sp c)
        = (some (.file sp c),
           (equal pfx (some (.file dp c)) (some (.file sp c))).2
             ++ [⟨.dstR, pfx, .chmod sp⟩]) := by
      rw [sync_file_def]
      simp only [prepFile, hT, if_pos]
      rw [syncperms_some_some]
      have hperm : (FNode.file dp c).perm = dp := rfl
      simp [hperm, FNode.perm, hne, FNode.withPerm]
    refine ⟨hchar, ?_, ?_⟩
    · intro e he
      rw [hchar] at he
      simp only [List.mem_append, List.mem_singleton] at he
      rcases he with h1 | h2
      · exact isRead_not_isWrite e.op (equal_reads pfx _ _ e h1)
      · rw [h2]
        rfl
    · rw [hchar]
      simp

/-- Witness for claim C5: destination file with bits 600, source file with
identical content and bits 644; a chmod to 644 is in the trace. -/
theorem claim_C5_witness :
    Effect.mk .dstR [] (.chmod 0o644)
      ∈ (sync false [] (some (.file 0o600 [5])) (.file 0o644 [5])).2 :=
  (claim_C5 [] (.file 0 []) (.file 0 []) none none false (.file 0 [])
    0o600 0o644 [5] (by decide)).2.2.2.2.2

/-
  Part 10: a second synchronization of an unchanged source is the
  identity and copies no bytes.
-/

theorem syncChildren_id (del : Bool) (pfx : FPath) (scs : List (String × FNode)) :
    ∀ cs, (∀ n sn, (n, sn) ∈ scs → ∃ dn, lookupChild cs n = some dn
        ∧ (sync del (pfx ++ [n]) (some dn) sn).1 = some dn
        ∧ (∀ e ∈ (sync del (pfx ++ [n]) (some dn) sn).2, e.op.isWrite = false)) →
      (syncChildren del pfx cs scs).1 = cs
      ∧ ∀ e ∈ (syncChildren del pfx cs scs).2, e.op.isWrite = false := by
  induction scs with
  | nil =>
    intro cs _
    rw [syncChildren_nil]
    exact ⟨rfl, by simp⟩
  | cons hd tl ih =>
    obtain ⟨n, sn⟩ := hd
    intro cs H
    obtain ⟨dn, hlk, hid, hwr⟩ := H n sn (List.mem_cons_self _ _)
    rw [syncChildren_cons]
    simp only [hlk, hid]
    rw [setChild_self cs n dn hlk]
    obtain ⟨ih1, ih2⟩ := ih cs (fun m sm hm => H m sm (List.mem_cons_of_mem _ hm))
    refine ⟨ih1, ?_⟩
    intro e he
    rcases List.mem_append.mp he with h1 | h2
    · exact hwr e h1
    · exact ih2 e h2

theorem sync_id_bounded (k : Nat) :
    ∀ (s : FNode) (del : Bool) (pfx : FPath) (dn : FNode),
      FNode.size s ≤ k → wf s = true → synced dn s = true →
      (del = true → noExtra dn s = true) →
      (sync del pfx (some dn) s).1 = some dn
      ∧ ∀ e ∈ (sync del pfx (some dn) s).2, e.op.isWrite = false := by
  induction k with
  | zero =>
    intro s del pfx dn hk
    exact absurd hk (by have := size_pos s; omega)
  | succ k ih =>
    intro s del pfx dn hk hwf hsy hnx
    cases s with
    | file sp sc =>
      cases dn with
      | dir q qs => simp [synced] at hsy
      | file dp dc =>
        simp only [synced, Bool.and_eq_true, decide_eq_true_eq] at hsy
        obtain ⟨hp, hc⟩ := hsy
        subst hp
        subst hc
        have hT : (equal pfx (some (.file dp dc)) (some (.file dp dc))).1 = true :=
          (equal_file_true_iff pfx dp dp dc dc).mpr rfl
        have hchar : sync del pfx (some (.file dp dc)) (.file dp dc)
            = (some (.file dp dc),
               (equal pfx (some (.file dp dc)) (some (.file dp dc))).2) := by
          rw [sync_file_def]
          simp [prepFile, hT, syncperms_some_some, FNode.perm]
        rw [hchar]
        refine ⟨rfl, ?_⟩
        intro e he
        exact isRead_not_isWrite e.op (equal_reads pfx _ _ e he)
    | dir sp scs =>
      cases dn with
      | file q qc => simp [synced] at hsy
      | dir dp dcs =>
        simp only [synced, Bool.and_eq_true, decide_eq_true_eq] at hsy
        obtain ⟨hp, hch⟩ := hsy
        subst hp
        simp only [wf, Bool.and_eq_true] at hwf
        obtain ⟨hnd, hwfCh⟩ := hwf
        have hH : ∀ n sn, (n, sn) ∈ scs → ∃ dn2, lookupChild dcs n = some dn2
            ∧ (sync del (pfx ++ [n]) (some dn2) sn).1 = some dn2
            ∧ (∀ e ∈ (sync del (pfx ++ [n]) (some dn2) sn).2, e.op.isWrite = false) := by
          intro n sn hmem
          obtain ⟨dn2, hlk, hsy2⟩ := (syncedCh_iff dcs scs).mp hch (n, sn) hmem
          have hnx2 : del = true → noExtra dn2 sn = true := by
            intro hdel
            have hne := hnx hdel
            simp only [noExtra] at hne
            obtain ⟨sn2, hsn2, hne2⟩ := (noExtraCh_iff scs dcs).mp hne (n, dn2)
              (lookupChild_mem dcs n dn2 hlk)
            have : sn2 = sn := by
              have h2 := mem_lookupChild scs n sn hmem hnd
              rw [h2] at hsn2
              exact (Option.some_inj.mp hsn2).symm
            rw [← this]
            exact hne2
          have hsz : FNode.size sn ≤ k := by
            have h1 := size_mem scs n sn hmem
            have h2 : FNode.size (.dir dp scs) = 1 + sizeL scs := rfl
            omega
          have hwf2 := wfCh_lookupChild scs n sn (mem_lookupChild scs n sn hmem hnd) hwfCh
          obtain ⟨ha, hb⟩ := ih sn del (pfx ++ [n]) dn2 hsz hwf2 hsy2 hnx2
          exact ⟨dn2, hlk, ha, hb⟩
        obtain ⟨hid, hwr⟩ := syncChildren_id del pfx scs dcs hH
        by_cases hdel : del = true
        · subst hdel
          have hkeep : ∀ c ∈ (syncChildren true pfx dcs scs).1, hasName scs c.1 = true := by
            rw [hid]
            intro c hc
            have hne := hnx rfl
            simp only [noExtra] at hne
            obtain ⟨sn2, hsn2, _⟩ := (noExtraCh_iff scs dcs).mp hne c hc
            rw [hasName_eq_isSome, hsn2]
            rfl
          have hfil : (syncChildren true pfx dcs scs).1.filter (fun c => hasName scs c.1)
              = dcs := by
            rw [List.filter_eq_self.mpr hkeep, hid]
          have hfil2 : (syncChildren true pfx dcs scs).1.filter (fun c => !hasName scs c.1)
              = [] := by
            rw [List.filter_eq_nil_iff.mpr]
            intro c hc
            simp [hkeep c hc]
          have hchar : sync true pfx (some (.dir dp dcs)) (.dir dp scs)
              = (some (.dir dp dcs), (syncChildren true pfx dcs scs).2) := by
            rw [sync_dir_def]
            simp [prepDir, hfil, hfil2, syncperms_some_some, FNode.perm]
          rw [hchar]
          exact ⟨rfl, hwr⟩
        · rw [Bool.not_eq_true] at hdel
          subst hdel
          have hchar : sync false pfx (some (.dir dp dcs)) (.dir dp scs)
              = (some (.dir dp dcs), (syncChildren false pfx dcs scs).2) := by
            rw [sync_dir_def]
            simp [prepDir, hid, syncperms_some_some, FNode.perm]
          rw [hchar]
          exact ⟨rfl, hwr⟩

/-- Claim C7: Sync is idempotent.  If Sync succeeds, running Sync again
with the unchanged source succeeds, leaves the destination of the first
run exactly as it is, and performs zero byte copies (every file takes the
content-already-equal skip path, so no io.Copy write appears in the
trace). -/
theorem claim_C7 (d s : Option FNode) (r1 : Option FNode × List Effect)
    (hws : wfO s = true) (hok : Sync d s = .ok r1) :
    ∃ r2, Sync r1.1 s = .ok r2 ∧ r2.1 = r1.1 ∧ ∀ e ∈ r2.2, e.op.isWrite = false := by
  unfold Sync SyncFs at hok ⊢
  cases hcd : checkDir d s with
  | error e => rw [hcd] at hok; simp at hok
  | ok b =>
    rw [hcd] at hok
    cases b with
    | true => simp at hok
    | false =>
      cases s with
      | none => simp at hok
      | some sn =>
        simp only [Except.ok.injEq] at hok
        have hsy := sync_synced false [] d sn (by simpa [wfO] using hws)
        cases hres : (sync false [] d sn).1 with
        | none => rw [hres] at hsy; simp [syncedO] at hsy
        | some dn =>
          rw [hres] at hsy
          simp only [syncedO] at hsy
          have hr1 : r1.1 = some dn := by
            rw [← hok, hres]
          rw [hr1]
          have hcd2 : checkDir (some dn) (some sn) = .ok false := by
            cases dn with
            | file q qc =>
              cases sn with
              | file q2 qc2 => rfl
              | dir q2 qcs => rfl
            | dir q qcs =>
              cases sn with
              | file q2 qc2 => simp [synced] at hsy
              | dir q2 qcs2 => rfl
          rw [hcd2]
          obtain ⟨hida, hidb⟩ := sync_id_bounded (FNode.size sn) sn false [] dn le_rfl
            (by simpa [wfO] using hws) hsy (by simp)
          refine ⟨sync false [] (some dn) sn, rfl, ?_, hidb⟩
          rw [hida]

/-- Witness for claim C7: first run copies the source file into an empty
destination; the theorem is applied to that run's result. -/
theorem claim_C7_witness :
    ∃ r2, Sync (some (.file 0o644 [1, 2])) (some (.file 0o644 [1, 2])) = .ok r2
      ∧ r2.1 = some (.file 0o644 [1, 2]) ∧ ∀ e ∈ r2.2, e.op.isWrite = false :=
  claim_C7 none (some (.file 0o644 [1, 2]))
    (some (.file 0o644 [1, 2]), copyTrace [] 2 ++ [Effect.mk .dstR [] (.chmod 0o644)])
    rfl (by rfl)

/-
  Part 11: the shape of a directory-to-directory synchronization.
-/

theorem lookupPathO_single (q : Nat) (cs : List (String × FNode)) (n : String) :
    lookupPathO (some (.dir q cs)) [n] = lookupChild cs n := by
  cases h : lookupChild cs n with
  | none => simp [lookupPathO, FNode.lookupPath, h]
  | some c => simp [lookupPathO, FNode.lookupPath, h]

theorem sync_dir_children_del (pfx : FPath) (dp : Nat) (dcs : List (String × FNode))
    (sp : Nat) (scs : List (String × FNode)) :
    ∃ q, (sync true pfx (some (.dir dp dcs)) (.dir sp scs)).1
      = some (.dir q ((syncChildren true pfx dcs scs).1.filter
          (fun c => hasName scs c.1))) := by
  rw [sync_dir_def]
  simp only [prepDir, if_true]
  by_cases h : (FNode.dir dp ((syncChildren true pfx dcs scs).1.filter
      (fun c => hasName scs c.1))).perm = (FNode.dir sp scs).perm
  · exact ⟨dp, by rw [syncperms_some_some]; simp [h]⟩
  · refine ⟨sp, ?_⟩
    rw [syncperms_some_some]
    have h2 : dp ≠ sp := by simpa [FNode.perm] using h
    simp [h2, FNode.withPerm, FNode.perm]

theorem sync_dir_children_nodel (pfx : FPath) (dp : Nat) (dcs : List (String × FNode))
    (sp : Nat) (scs : List (String × FNode)) :
    ∃ q, (sync false pfx (some (.dir dp dcs)) (.dir sp scs)).1
      = some (.dir q (syncChildren false pfx dcs scs).1) := by
  rw [sync_dir_def]
  simp only [prepDir, Bool.false_eq_true, if_false]
  by_cases h : (FNode.dir dp (syncChildren false pfx dcs scs).1).perm
      = (FNode.dir sp scs).perm
  · exact ⟨dp, by rw [syncperms_some_some]; simp [h]⟩
  · refine ⟨sp, ?_⟩
    rw [syncperms_some_some]
    have h2 : dp ≠ sp := by simpa [FNode.perm] using h
    simp [h2, FNode.withPerm, FNode.perm]

/-- Claim C3: for directory-to-directory synchronization, (i) deletion
mode leaves a destination child exactly when its name is among the
source's children; (ii) non-deletion mode leaves destination-only
children untouched; (iii) a child present on both sides that is already
fully synchronized is left in place, and its synchronization performs no
byte copy; (iv) the whole trace is the child-synchronization phase,
then the cleanup deletions (removeAll only, absent in non-deletion mode),
then the permission phase, in that order. -/
theorem claim_C3 (del : Bool) (pfx : FPath) (dp sp : Nat)
    (dcs scs : List (String × FNode))
    (hS : wf (.dir sp scs) = true) :
    (∀ n, (lookupPathO (sync true pfx (some (.dir dp dcs)) (.dir sp scs)).1 [n]).isSome
        = hasName scs n)
    ∧ (∀ n, hasName scs n = false →
        lookupPathO (sync false pfx (some (.dir dp dcs)) (.dir sp scs)).1 [n]
          = lookupChild dcs n)
    ∧ (∀ n sn dn, lookupChild scs n = some sn → lookupChild dcs n = some dn →
        synced dn sn = true → (del = true → noExtra dn sn = true) →
        lookupPathO (sync del pfx (some (.dir dp dcs)) (.dir sp scs)).1 [n] = some dn
        ∧ ∀ e ∈ (sync del (pfx ++ [n]) (some dn) sn).2, e.op.isWrite = false)
    ∧ (∃ tDel tPerm,
        (sync del pfx (some (.dir dp dcs)) (.dir sp scs)).2
          = (syncChildren del pfx dcs scs).2 ++ tDel ++ tPerm
        ∧ (∀ e ∈ tDel, e.op = .removeAll)
        ∧ (∀ e ∈ tPerm, ∃ q, e.op = .chmod q)
        ∧ (del = false → tDel = [])) := by
  simp only [wf, Bool.and_eq_true] at hS
  obtain ⟨hnd, hwfCh⟩ := hS
  refine ⟨?_, ?_, ?_, ?_⟩
  · intro n
    obtain ⟨q, hq⟩ := sync_dir_children_del pfx dp dcs sp scs
    rw [hq, lookupPathO_single, lookupChild_filter]
    cases hhn : hasName scs n with
    | false => simp
    | true =>
      simp only [if_pos rfl]
      rw [hasName_eq_isSome] at hhn
      obtain ⟨sn, hsn⟩ := Option.isSome_iff_exists.mp hhn
      rw [syncChildren_lookup_processed true pfx scs n sn hnd hsn dcs]
      obtain ⟨dn, hdn⟩ := sync_fst_some true (pfx ++ [n]) (lookupChild dcs n) sn
      rw [hdn]
      rfl
  · intro n hhn
    obtain ⟨q, hq⟩ := sync_dir_children_nodel pfx dp dcs sp scs
    rw [hq, lookupPathO_single]
    exact syncChildren_lookup_untouched false pfx scs n hhn dcs
  · intro n sn dn hsn hdn hsy hnx
    have hwfsn := wfCh_lookupChild scs n sn hsn hwfCh
    obtain ⟨hida, hidb⟩ := sync_id_bounded (FNode.size sn) sn del (pfx ++ [n]) dn
      le_rfl hwfsn hsy hnx
    refine ⟨?_, hidb⟩
    have hproc : lookupChild (syncChildren del pfx dcs scs).1 n
        = (sync del (pfx ++ [n]) (lookupChild dcs n) sn).1 :=
      syncChildren_lookup_processed del pfx scs n sn hnd hsn dcs
    rw [hdn, hida] at hproc
    by_cases hdel : del = true
    · subst hdel
      obtain ⟨q, hq⟩ := sync_dir_children_del pfx dp dcs sp scs
      rw [hq, lookupPathO_single, lookupChild_filter]
      have hhn : hasName scs n = true := by
        rw [hasName_eq_isSome, hsn]
        rfl
      rw [hhn, if_pos rfl]
      exact hproc
    · rw [Bool.not_eq_true] at hdel
      subst hdel
      obtain ⟨q, hq⟩ := sync_dir_children_nodel pfx dp dcs sp scs
      rw [hq, lookupPathO_single]
      exact hproc
  · by_cases hdel : del = true
    · subst hdel
      refine ⟨((syncChildren true pfx dcs scs).1.filter
          (fun c => !hasName scs c.1)).map
            (fun c => ⟨.dstR, pfx ++ [c.1], .removeAll⟩),
        (syncperms pfx (some (.dir dp ((syncChildren true pfx dcs scs).1.filter
          (fun c => hasName scs c.1)))) (some (.dir sp scs))).2, ?_, ?_, ?_, ?_⟩
      · rw [sync_dir_def]
        simp [prepDir]
      · intro e he
        obtain ⟨c, _, hc⟩ := List.mem_map.mp he
        rw [← hc]
      · intro e he
        obtain ⟨q2, hq2, _, _⟩ := syncperms_trace_chmod pfx _ _ e he
        exact ⟨q2, hq2⟩
      · intro h
        simp at h
    · rw [Bool.not_eq_true] at hdel
      subst hdel
      refine ⟨[], (syncperms pfx (some (.dir dp (syncChildren false pfx dcs scs).1))
          (some (.dir sp scs))).2, ?_, by simp, ?_, fun _ => rfl⟩
      · rw [sync_dir_def]
        simp [prepDir]
      · intro e he
        obtain ⟨q2, hq2, _, _⟩ := syncperms_trace_chmod pfx _ _ e he
        exact ⟨q2, hq2⟩

/-- Witness for claim C3, the spec's own example: source listing a, b and
destination listing a, b, c; in deletion mode the entry c is gone
afterwards (its name is not among the source's children). -/
theorem claim_C3_witness :
    (lookupPathO (sync true []
        (some (.dir 0o755 [("a", .file 0o644 [1]), ("b", .file 0o644 [2]),
          ("c", .file 0o644 [3])]))
        (.dir 0o755 [("a", .file 0o644 [1]), ("b", .file 0o644 [2])])).1 ["c"]).isSome
      = hasName [("a", .file 0o644 [1]), ("b", .file 0o644 [2])] "c" :=
  (claim_C3 true [] 0o755 0o755
    [("a", .file 0o644 [1]), ("b", .file 0o644 [2]), ("c", .file 0o644 [3])]
    [("a", .file 0o644 [1]), ("b", .file 0o644 [2])] (by decide)).1 "c"

/-
  Part 12: every mutation is performed on the destination root.
-/

theorem prepFile_effects (pfx : FPath) (d : Option FNode) :
    ∀ e ∈ (prepFile pfx d).2, e.root = .dstR := by
  intro e he
  match d with
  | none => simp [prepFile] at he
  | some (.file q qc) => simp [prepFile] at he
  | some (.dir q qcs) =>
    simp only [prepFile, List.mem_singleton] at he
    rw [he]

theorem prepDir_effects (pfx : FPath) (d : Option FNode) :
    ∀ e ∈ (prepDir pfx d).2.2, e.root = .dstR := by
  intro e he
  match d with
  | none =>
    simp only [prepDir, List.mem_singleton] at he
    rw [he]
  | some (.file q qc) =>
    simp only [prepDir, List.mem_cons, List.mem_singleton] at he
    rcases he with h | h
    · rw [h]
    · simp only [List.mem_singleton, List.not_mem_nil, or_false] at h
      rw [h]
  | some (.dir q qcs) => simp [prepDir] at he

theorem copyTrace_mut (pfx : FPath) (k : Nat) :
    ∀ e ∈ copyTrace pfx k, e.op.isMutation = true → e.root = .dstR := by
  intro e he hm
  simp only [copyTrace, List.mem_cons, List.mem_singleton] at he
  rcases he with h | h | h
  · rw [h]
  · rw [h] at hm
    simp [FsOp.isMutation] at hm
  · simp only [List.mem_singleton, List.not_mem_nil, or_false] at h
    rw [h]

theorem syncChildren_mut (del : Bool) (pfx : FPath) (scs : List (String × FNode))
    (H : ∀ n sn, (n, sn) ∈ scs → ∀ pfx2 d2,
      ∀ e ∈ (sync del pfx2 d2 sn).2, e.op.isMutation = true → e.root = .dstR) :
    ∀ cs, ∀ e ∈ (syncChildren del pfx cs scs).2, e.op.isMutation = true → e.root = .dstR := by
  induction scs with
  | nil =>
    intro cs e he
    rw [syncChildren_nil] at he
    simp at he
  | cons hd tl ih =>
    obtain ⟨n, sn⟩ := hd
    intro cs e he hm
    rw [syncChildren_cons] at he
    simp only [] at he
    obtain ⟨v, hv⟩ := sync_fst_some del (pfx ++ [n]) (lookupChild cs n) sn
    rw [hv] at he
    rcases List.mem_append.mp he with h1 | h2
    · exact H n sn (List.mem_cons_self _ _) (pfx ++ [n]) (lookupChild cs n) e h1 hm
    · exact ih (fun m sm hmem => H m sm (List.mem_cons_of_mem _ hmem))
        (setChild cs n v) e h2 hm

theorem sync_mut_bounded (k : Nat) :
    ∀ (s : FNode) (del : Bool) (pfx : FPath) (d : Option FNode),
      FNode.size s ≤ k →
      ∀ e ∈ (sync del pfx d s).2, e.op.isMutation = true → e.root = .dstR := by
  induction k with
  | zero =>
    intro s del pfx d hk
    exact absurd hk (by have := size_pos s; omega)
  | succ k ih =>
    intro s del pfx d hk e he hm
    rw [sync_eq_content_perms] at he
    rcases List.mem_append.mp he with hbody | hperm
    · cases s with
      | file sp sc =>
        simp only [syncContent] at hbody
        by_cases hE : (equal pfx (prepFile pfx d).1 (some (.file sp sc))).1 = true
        · rw [if_pos hE] at hbody
          rcases List.mem_append.mp hbody with h1 | h2
          · exact prepFile_effects pfx d e h1
          · rw [isRead_not_isMutation e.op (equal_reads pfx _ _ e h2)] at hm
            simp at hm
        · rw [if_neg hE] at hbody
          rcases List.mem_append.mp hbody with h12 | h3
          · rcases List.mem_append.mp h12 with h1 | h2
            · exact prepFile_effects pfx d e h1
            · rw [isRead_not_isMutation e.op (equal_reads pfx _ _ e h2)] at hm
              simp at hm
          · exact copyTrace_mut pfx sc.length e h3 hm
      | dir sp scs =>
        have hH : ∀ n sn, (n, sn) ∈ scs → ∀ pfx2 d2,
            ∀ e2 ∈ (sync del pfx2 d2 sn).2, e2.op.isMutation = true → e2.root = .dstR := by
          intro n sn hmem pfx2 d2
          apply ih sn del pfx2 d2
          have h1 := size_mem scs n sn hmem
          have h2 : FNode.size (.dir sp scs) = 1 + sizeL scs := rfl
          omega
        simp only [syncContent] at hbody
        by_cases hdel : del = true
        · subst hdel
          simp only [if_true] at hbody
          rcases List.mem_append.mp hbody with h12 | h3
          · rcases List.mem_append.mp h12 with h1 | h2
            · exact prepDir_effects pfx d e h1
            · exact syncChildren_mut true pfx scs hH (prepDir pfx d).2.1 e h2 hm
          · obtain ⟨c, _, hc⟩ := List.mem_map.mp h3
            rw [← hc]
        · rw [Bool.not_eq_true] at hdel
          subst hdel
          simp only [Bool.false_eq_true, if_false] at hbody
          rcases List.mem_append.mp hbody with h1 | h2
          · exact prepDir_effects pfx d e h1
          · exact syncChildren_mut false pfx scs hH (prepDir pfx d).2.1 e h2 hm
    · obtain ⟨_, _, hroot, _⟩ := syncperms_trace_chmod pfx _ _ e hperm
      exact hroot

/-- Claim C8: the library never mutates the source tree.  Every mutating
filesystem call in any trace of sync (and hence of Sync and SyncDel,
whose non-guard work is sync; the guard itself only stats and lists) is
applied to a destination-rooted path; reads are the only calls that
receive source paths. -/
theorem claim_C8 :
    (∀ (del : Bool) (pfx : FPath) (d : Option FNode) (s : FNode),
      ∀ e ∈ (sync del pfx d s).2, e.op.isMutation = true → e.root = .dstR)
    ∧ (∀ (del : Bool) (d s : Option FNode) (r : Option FNode × List Effect),
        SyncFs del d s = .ok r →
        ∀ e ∈ r.2, e.op.isMutation = true → e.root = .dstR) := by
  have hsync : ∀ (del : Bool) (pfx : FPath) (d : Option FNode) (s : FNode),
      ∀ e ∈ (sync del pfx d s).2, e.op.isMutation = true → e.root = .dstR :=
    fun del pfx d s => sync_mut_bounded (FNode.size s) s del pfx d le_rfl
  refine ⟨hsync, ?_⟩
  intro del d s r hok e he hm
  unfold SyncFs at hok
  cases hcd : checkDir d s with
  | error e2 => rw [hcd] at hok; simp at hok
  | ok b =>
    rw [hcd] at hok
    cases b with
    | true => simp at hok
    | false =>
      cases s with
      | none => simp at hok
      | some sn =>
        simp only [Except.ok.injEq] at hok
        rw [← hok] at he
        exact hsync del [] d sn e he hm

/-- Witness for claim C8: the create call of a fresh file copy carries the
destination root. -/
theorem claim_C8_witness : (Effect.mk .dstR [] .create).root = .dstR :=
  claim_C8.1 false [] none (.file 0 [1]) (Effect.mk .dstR [] .create)
    (by decide) (by decide)
